import Mathlib

/-!
Verification of the Synapse insight-pipeline substrate against its
natural-language specification.

The Lean definitions below are a shallow embedding of the Python sources:

* `Jobs`      — `src/src/jobs.py` (`JobStore`, its views and operations),
  together with the runner of `src/server.py` as a trace of store operations;
* `Verifier`  — `src/src/backend/refinement.py` (`verify_candidates`) and
  `src/src/utils.py` (`core_web_search`);
* `Chunker`   — `src/src/eureka_rag/chunker.py` (`chunk_document`) and
  `src/src/services/embedding_service.py` (`chunk_text`);
* `VectorIdx` — `src/src/services/vector_index_manager.py`;
* `Retrieval` — `src/src/eureka_rag/retrieval.py` (`rrf`);
* `Ranking`   — `src/src/backend/ranking.py` (`rank_insights`).

Conventions: Python `datetime` instants are embedded as integers (seconds),
Python strings are embedded as `String` where only equality is used and as
`List Char` where the code manipulates their characters, Python floats are
idealised as real numbers, and Python exceptions are `Except`.
-/

namespace Jobs

/-- `JobState` enum of `jobs.py`. -/
inductive JobState
  | QUEUED
  | RUNNING
  | SUCCEEDED
  | FAILED
  | CANCELLED
deriving DecidableEq, Repr

/-- `Phase` enum of `jobs.py`. -/
inductive Phase
  | candidate_selection
  | initial_synthesis
  | multi_hop
  | agent_refinement
  | finalizing
deriving DecidableEq, Repr

/-- `Insight` API model of `jobs.py` (fields irrelevant to the claims under
study are kept but not constrained). -/
structure Insight where
  insight_id : String
  title : String
  score : ℚ
  snippet : Option String
  agenticTranscript : Option String
deriving DecidableEq, Repr

/-- `JobProgress` model: `phase` and `pct`. -/
structure JobProgress where
  phase : Phase
  pct : Int
deriving DecidableEq, Repr

/-- `JobMetrics` model with its four integer counters. -/
structure JobMetrics where
  notes_considered : Int
  clusters : Int
  llm_calls : Int
  elapsed_ms : Int
deriving DecidableEq, Repr

/-- `JobResult` model: a version tag and a list of insights. -/
structure JobResult where
  version : String
  insights : List Insight
deriving DecidableEq, Repr

/-- `JobView` model of `jobs.py`. Errors are embedded as `(code, message)`
pairs. -/
structure JobView where
  job_id : String
  status : JobState
  progress : Option JobProgress
  started_at : Int
  updated_at : Int
  metrics : JobMetrics
  partial_results : List Insight
  result : Option JobResult
  error : Option (String × String)
  trace_id : String
  log : Option String
deriving DecidableEq, Repr

/-- `_JobInternal` of `jobs.py`: the view plus the cancel event
(`asyncio.Event` embedded as a `Bool`), creation instant and TTL. -/
structure JobInternal where
  view : JobView
  cancel_event : Bool
  created_at : Int
  ttl : Int
deriving DecidableEq, Repr

/-- `_JobInternal.is_expired`: `now - created_at > ttl`. -/
def JobInternal.is_expired (j : JobInternal) (now : Int) : Bool :=
  now - j.created_at > j.ttl

/-- `_JobInternal.__init__`: a fresh QUEUED job with initial progress
`{candidate_selection, 0}` and a 24-hour TTL. -/
def mkJob (job_id trace_id : String) (now : Int) : JobInternal :=
  { view :=
      { job_id := job_id
        status := .QUEUED
        progress := some ⟨.candidate_selection, 0⟩
        started_at := now
        updated_at := now
        metrics := ⟨0, 0, 0, 0⟩
        partial_results := []
        result := none
        error := none
        trace_id := trace_id
        log := none }
    cancel_event := false
    created_at := now
    ttl := 24 * 3600 }

/-- The `JobStore._jobs` dict, embedded as an association list keyed by job
id (insertion order is irrelevant to the claims). -/
abbrev JobStore := List (String × JobInternal)

/-- `self._jobs.get(job_id)`. -/
def JobStore.find (s : JobStore) (id : String) : Option JobInternal :=
  (s.find? (fun p => p.1 = id)).map Prod.snd

/-- In-place mutation of the job record stored under `id`. -/
def JobStore.setJob (s : JobStore) (id : String) (j : JobInternal) : JobStore :=
  s.map (fun p => if p.1 = id then (id, j) else p)

/-- `del self._jobs[job_id]`. -/
def JobStore.eraseJob (s : JobStore) (id : String) : JobStore :=
  s.filter (fun p => p.1 ≠ id)

/-- `JobStore.get`: looks the job up and deletes it when expired, returning
the (possibly changed) store alongside the lookup result. -/
def JobStore.get (s : JobStore) (id : String) (now : Int) :
    Option JobInternal × JobStore :=
  match s.find id with
  | some j => if j.is_expired now then (none, s.eraseJob id) else (some j, s)
  | none => (none, s)

/-- The `**fields` keyword arguments accepted by `JobStore.update` as its
callers (`complete`, `fail`) use them: a present entry means the field is
assigned. -/
structure UpdateFields where
  status : Option JobState
  result : Option JobResult
  error : Option (String × String)

/-- `setattr(job.view, k, v)` for each given field. -/
def applyFields (v : JobView) (f : UpdateFields) : JobView :=
  let v1 := match f.status with
    | some st => { v with status := st }
    | none => v
  let v2 := match f.result with
    | some r => { v1 with result := some r }
    | none => v1
  match f.error with
  | some e => { v2 with error := some e }
  | none => v2

/-- `JobStore.update`: `KeyError` when the id is unknown (no expiry check),
otherwise assign the given fields and bump `updated_at`. -/
def JobStore.update (s : JobStore) (id : String) (f : UpdateFields)
    (now : Int) : Except String JobStore :=
  match s.find id with
  | none => .error id
  | some j =>
      .ok (s.setJob id { j with view := { applyFields j.view f with updated_at := now } })

/-- Keys of the `metrics_delta` dict: the four `JobMetrics` fields. -/
inductive MetricKey
  | notes_considered
  | clusters
  | llm_calls
  | elapsed_ms
deriving DecidableEq, Repr

/-- `setattr(m, k, getattr(m, k) + int(dv))` for one delta entry. -/
def JobMetrics.addDelta (m : JobMetrics) (k : MetricKey) (dv : Int) : JobMetrics :=
  match k with
  | .notes_considered => { m with notes_considered := m.notes_considered + dv }
  | .clusters => { m with clusters := m.clusters + dv }
  | .llm_calls => { m with llm_calls := m.llm_calls + dv }
  | .elapsed_ms => { m with elapsed_ms := m.elapsed_ms + dv }

/-- `JobStore.heartbeat`. Python truthiness is modelled exactly: the
`if partial:` guard skips both `None` and the empty list, `if metrics_delta:`
skips `None` and the empty dict, `if message:` skips `None` and `""`.
(The `partial` argument is called `partialList` here because `partial` is a
reserved word in Lean.) -/
def JobStore.heartbeat (s : JobStore) (id : String) (phase : Phase) (pct : Int)
    (partialList : Option (List Insight)) (metrics_delta : Option (List (MetricKey × Int)))
    (message : Option String) (now : Int) : Except String JobStore :=
  match s.find id with
  | none => .error id
  | some j =>
      let v0 := { j.view with progress := some ⟨phase, pct⟩ }
      let v1 := match partialList with
        | some (p :: ps) => { v0 with partial_results := p :: ps }
        | _ => v0
      let v2 := match metrics_delta with
        | some (d :: ds) =>
            { v1 with metrics :=
                (d :: ds).foldl (fun m (kv : MetricKey × Int) => m.addDelta kv.1 kv.2) v1.metrics }
        | _ => v1
      let v3 := match message with
        | some msg => if msg = "" then v2 else { v2 with log := some msg }
        | none => v2
      .ok (s.setJob id { j with view := { v3 with updated_at := now } })

/-- `JobStore.complete`: `update(id, status=SUCCEEDED, result=result)`. -/
def JobStore.complete (s : JobStore) (id : String) (r : JobResult) (now : Int) :
    Except String JobStore :=
  s.update id ⟨some .SUCCEEDED, some r, none⟩ now

/-- `JobStore.fail`: `update(id, status=FAILED, error={code, message})`. -/
def JobStore.fail (s : JobStore) (id code message : String) (now : Int) :
    Except String JobStore :=
  s.update id ⟨some .FAILED, none, some (code, message)⟩ now

/-- `JobStore.cancel`: sets the cancel event and writes status CANCELLED
(no expiry check — the raw dict is consulted). -/
def JobStore.cancel (s : JobStore) (id : String) (now : Int) :
    Except String JobStore :=
  match s.find id with
  | none => .error id
  | some j =>
      .ok (s.setJob id
        { j with cancel_event := true
                 view := { j.view with status := .CANCELLED, updated_at := now } })

/-- `JobStore.is_cancelled`: `get` (which evicts an expired job), then the
cancel event of the found job, `True` otherwise. -/
def JobStore.is_cancelled (s : JobStore) (id : String) (now : Int) :
    Bool × JobStore :=
  match s.get id now with
  | (some j, s') => (j.cancel_event, s')
  | (none, s') => (true, s')

/-- The terminal states of the job state machine. -/
def JobState.isTerminal : JobState → Prop
  | .SUCCEEDED => True
  | .FAILED => True
  | .CANCELLED => True
  | _ => False

instance : DecidablePred JobState.isTerminal := by
  intro st
  cases st <;> simp [JobState.isTerminal] <;> infer_instance

end Jobs

namespace Verifier

/-- One web-search hit, as `core_web_search` of `utils.py` shapes it
(`{title, snippet, url}`). Texts are character lists so that the
case-insensitive containment below is the same operation the Python code
performs. -/
structure SearchResult where
  title : List Char
  snippet : List Char
  url : List Char
deriving DecidableEq, Repr

/-- A candidate passed to `verify_candidates` (`{"text": ...}`). -/
structure Candidate where
  text : List Char
deriving DecidableEq, Repr

/-- One citation `{url, snippet}` recorded by `verify_candidates`. -/
structure Citation where
  url : List Char
  snippet : List Char
deriving DecidableEq, Repr

/-- One element of the list returned by `verify_candidates`. The Python
`notes` field is the formatted string `f"score={score}"`; it is embedded as
the integer `score` itself. -/
structure Verification where
  candidate : Candidate
  verdict : String
  notes_score : Nat
  citations : List Citation
deriving DecidableEq, Repr

/-- Python `str.lower()` restricted to ASCII, as applied to snippets and
candidate texts. -/
def pyLower (s : List Char) : List Char := s.map Char.toLower

/-- Python's substring test `needle in hay`. -/
def pyContains (hay needle : List Char) : Bool :=
  hay.tails.any (fun t => needle.isPrefixOf t)

/-- The `score` accumulated over the search results (`refinement.py` lines
117-123): the number of snippets that contain the candidate text
case-insensitively. -/
def scoreOf (cand : Candidate) (rs : List SearchResult) : Nat :=
  (rs.filter (fun r => pyContains (pyLower r.snippet) (pyLower cand.text))).length

/-- The verdict expression of `refinement.py` line 125:
`"supported" if score >= 1 else ("uncertain" if search_results else
"refuted")`. -/
def verdictOf (cand : Candidate) (rs : List SearchResult) : String :=
  if scoreOf cand rs ≥ 1 then "supported"
  else if rs.isEmpty then "refuted" else "uncertain"

/-- The body of the `for cand in candidates` loop of `verify_candidates`
(`refinement.py` lines 113-132): compose the quoted query, search, count the
matching snippets, assign the verdict, record the citations. `search` stands
for `core_web_search`. -/
def verifyOne (search : List Char → Nat → List SearchResult)
    (query : List Char) (max_sites : Nat) (cand : Candidate) : Verification :=
  let search_query := query ++ ' ' :: '"' :: (cand.text ++ ['"'])
  let search_results := search search_query max_sites
  let citations := search_results.map (fun r => Citation.mk r.url r.snippet)
  ⟨cand, verdictOf cand search_results, scoreOf cand search_results,
    citations.take max_sites⟩

/-- `verify_candidates` of `refinement.py`: one verification per candidate,
in order. -/
def verify_candidates (search : List Char → Nat → List SearchResult)
    (query : List Char) (candidates : List Candidate) (max_sites : Nat) :
    List Verification :=
  candidates.map (verifyOne search query max_sites)

/-- `core_web_search` of `utils.py` in the configuration where
`SERPAPI_API_KEY` is unset: it logs a warning and returns no results,
whatever the query and count are. -/
def core_web_search_noKey : List Char → Nat → List SearchResult :=
  fun _ _ => []

end Verifier

namespace Chunker

/-- The whitespace characters removed by Python `str.strip()` (ASCII; the
notes under test contain no exotic Unicode whitespace). -/
def pyIsSpace (c : Char) : Bool :=
  c = ' ' || c = '\t' || c = '\n' || c = '\r' || c = '\x0b' || c = '\x0c'

/-- Python `str.strip()`. -/
def pyStrip (s : List Char) : List Char :=
  ((s.dropWhile pyIsSpace).reverse.dropWhile pyIsSpace).reverse

/-- Python `text.split("\n\n")`: cut at each non-overlapping, left-to-right
occurrence of two consecutive newline characters. -/
def splitNN : List Char → List (List Char)
  | [] => [[]]
  | '\n' :: '\n' :: rest => [] :: splitNN rest
  | c :: rest =>
    match splitNN rest with
    | [] => [[c]]
    | p :: ps => (c :: p) :: ps

/-- `chunk_text` of `embedding_service.py`: empty input gives `[]`,
otherwise split on `"\n\n"`, strip each part, keep the non-empty ones. -/
def chunk_text (text : List Char) : List (List Char) :=
  if text = [] then []
  else ((splitNN text).map pyStrip).filter (fun p => p ≠ [])

/-- Part of the matcher for the pattern `chunker.py` actually compiles. The
source writes `re.split(r'\\n\\s*\\n', ...)`; inside a *raw* string this is
the regex `\\n\\s*\\n`, which matches a literal backslash, the letter `n`, a
literal backslash, zero or more letters `s`, a literal backslash and the
letter `n` — not blank lines. `dropSRun` consumes the `s*` run followed by
the closing backslash-`n`. -/
def dropSRun : List Char → Option (List Char)
  | 's' :: rest => dropSRun rest
  | '\\' :: 'n' :: rest => some rest
  | _ => none

/-- Head matcher for the compiled pattern of `chunker.py` (see `dropSRun`):
backslash, `n`, backslash, then the `s*`-and-closing part. Returns the
suffix after the match. -/
def matchBadSep : List Char → Option (List Char)
  | '\\' :: 'n' :: '\\' :: rest => dropSRun rest
  | _ => none

/-- `re.split` with the pattern of `chunker.py`: scan left to right, cut at
each match. The fuel argument only forces termination; one unit is spent per
consumed character, so any fuel above the input length is enough. -/
def resplitF : Nat → List Char → List (List Char)
  | 0, l => [l]
  | _ + 1, [] => [[]]
  | fuel + 1, c :: rest =>
    match matchBadSep (c :: rest) with
    | some rest' => [] :: resplitF fuel rest'
    | none =>
      match resplitF fuel rest with
      | [] => [[c]]
      | p :: ps => (c :: p) :: ps

/-- The `Document` model consumed by `chunk_document` (id and content). -/
structure Document where
  id : List Char
  content : List Char
deriving DecidableEq, Repr

/-- The `Chunk` model produced by `chunk_document`; the Python chunk id
`f"{document.id}_chunk_{i}"` is embedded with `Nat.toDigits`. -/
structure Chunk where
  id : List Char
  document_id : List Char
  text : List Char
deriving DecidableEq, Repr

/-- `chunk_document` of `chunker.py`: split `content` with the (miswritten)
pattern, then keep each part whose strip is non-empty as a stripped chunk,
numbered by its position among the split parts. -/
def chunk_document (doc : Document) : List Chunk :=
  let paragraphs := resplitF (doc.content.length + 1) doc.content
  paragraphs.enum.filterMap (fun p =>
    if pyStrip p.2 ≠ [] then
      some ⟨doc.id ++ "_chunk_".toList ++ Nat.toDigits 10 p.1, doc.id, pyStrip p.2⟩
    else none)

end Chunker

namespace VectorIdx

/-- A `numpy` batch of row vectors as passed to `VectorIndexManager.add`:
rectangular, with `cols` playing `vectors.shape[1]`. Float entries are
idealised as rationals; the claims under study never inspect them. -/
structure NpMatrix where
  rows : List (List ℚ)
  cols : Nat
  hrect : ∀ r ∈ rows, r.length = cols

/-- The observable state of a `VectorIndexManager`: the configured/current
dimension, the flat index contents (`index`, one row per internal id), the
`faiss_id_to_db_id` list, and the pair of files on disk (the serialized
index carries its own dimension `index.d`, the JSON file the id list). -/
structure VIState where
  dimension : Nat
  vectors : List (List ℚ)
  id_map : List String
  disk : Option (Nat × List (List ℚ) × List String)

/-- `_load` as run by `__init__(dimension)`: with files present, the loaded
index (and its dimension `index.d`) replaces the in-memory state; without
files, a fresh empty index of the configured dimension. -/
def load (dimension : Nat)
    (disk : Option (Nat × List (List ℚ) × List String)) : VIState :=
  match disk with
  | some (d, v, m) => ⟨d, v, m, disk⟩
  | none => ⟨dimension, [], [], none⟩

/-- A manager freshly constructed with no files on disk. -/
def mkFresh (dimension : Nat) : VIState := load dimension none

/-- `save`: write the index and the id mapping to the two files; the
in-memory index is untouched. -/
def VIState.save (s : VIState) : VIState :=
  { s with disk := some (s.dimension, s.vectors, s.id_map) }

/-- `add(vectors, db_ids)`: raise `ValueError` when `vectors.shape[1]`
differs from the index dimension (before touching anything), otherwise
append the rows to the index and extend the id map. -/
def VIState.add (s : VIState) (vectors : NpMatrix) (db_ids : List String) :
    Except String VIState :=
  if vectors.cols ≠ s.dimension then
    .error "Vector dimension mismatch."
  else
    .ok { s with vectors := s.vectors ++ vectors.rows
                 id_map := s.id_map ++ db_ids }

/-- `remove_and_rebuild(ids_to_remove)`: compute the internal indices whose
external id survives, return unchanged when nothing is removed, otherwise
rebuild index and id map from those indices (`index.reconstruct(i)` and
`faiss_id_to_db_id[i]`, embedded through `get?` — the lemmas below show the
accesses are in bounds whenever the index and the map have equal length). -/
def VIState.remove_and_rebuild (s : VIState) (ids_to_remove : List String) :
    VIState :=
  let indices_to_keep :=
    (s.id_map.enum.filter (fun p => !ids_to_remove.contains p.2)).map Prod.fst
  if indices_to_keep.length = s.id_map.length then s
  else
    { s with vectors := indices_to_keep.filterMap (fun i => s.vectors[i]?)
             id_map := indices_to_keep.filterMap (fun i => s.id_map[i]?) }

/-- The mutating operations a `VectorIndexManager` undergoes during its
life. `load` re-runs `_load` on the current files, as a restart does. -/
inductive VIOp
  | add (vectors : NpMatrix) (db_ids : List String)
  | remove (ids_to_remove : List String)
  | save
  | load

/-- Apply one operation. A failing `add` raises before mutating, so the
caller keeps the previous state. -/
def VIState.applyOp (s : VIState) : VIOp → VIState
  | .add m ids =>
    match s.add m ids with
    | .ok s' => s'
    | .error _ => s
  | .remove ids => s.remove_and_rebuild ids
  | .save => s.save
  | .load => VectorIdx.load s.dimension s.disk

/-- Run a sequence of operations. -/
def VIState.run (s : VIState) (ops : List VIOp) : VIState :=
  ops.foldl VIState.applyOp s

/-- The specified invariant: `len(index.vectors) == len(index.id_map)`,
both in memory and in the files on disk. -/
def VIState.Inv (s : VIState) : Prop :=
  s.vectors.length = s.id_map.length ∧
    ∀ d v m, s.disk = some (d, v, m) → v.length = m.length

/-- Well-formedness of one call: `add` is handed one external id per row
(every caller in the source pairs `model.encode(text_chunks)` with the ids
of the same `text_chunks`). -/
def VIOp.Wf : VIOp → Prop
  | .add m ids => m.rows.length = ids.length
  | _ => True

end VectorIdx

namespace Retrieval

/-- One `scores[doc_id] = scores.get(doc_id, 0) + w` update of the Python
dict: an existing key keeps its insertion position, a new key is appended
last. -/
def bump : List (String × ℚ) → String → ℚ → List (String × ℚ)
  | [], doc, w => [(doc, w)]
  | (d, s) :: rest, doc, w =>
    if d = doc then (d, s + w) :: rest else (d, s) :: bump rest doc w

/-- The `for i, doc_id in enumerate(lst)` loop of `rrf`, starting from
index `n` (the source always starts at 0; the offset generalisation feeds
the induction). -/
def addListFrom (k : Nat) (acc : List (String × ℚ)) (n : Nat)
    (lst : List String) : List (String × ℚ) :=
  (lst.enumFrom n).foldl (fun a p => bump a p.2 (1 / (k + p.1 + 1 : ℚ))) acc

/-- The score dict built by `rrf` over all ranked lists. -/
def rrfScores (ranked_lists : List (List String)) (k : Nat) :
    List (String × ℚ) :=
  ranked_lists.foldl (fun acc lst => addListFrom k acc 0 lst) []

/-- `rrf` of `retrieval.py`: build the score dict, sort items by score
descending (Python `sorted` is stable, as is `mergeSort`), return the ids. -/
def rrf (ranked_lists : List (List String)) (k : Nat := 60) : List String :=
  ((rrfScores ranked_lists k).mergeSort (fun a b => decide (b.2 ≤ a.2))).map
    Prod.fst

/-- Dict lookup with default 0, used to state what `rrf` computed. -/
def lookupQ (l : List (String × ℚ)) (doc : String) : ℚ :=
  ((l.find? (fun p => p.1 = doc)).map Prod.snd).getD 0

/-- The total weight one list contributes to a document when its
enumeration starts at `n`: the sum of `1 / (k + i + 1)` over the positions
`i` where the document occurs. -/
def listScoreFrom (k n : Nat) (lst : List String) (doc : String) : ℚ :=
  (((lst.enumFrom n).filter (fun p => p.2 = doc)).map
    (fun p => (1 : ℚ) / (k + p.1 + 1))).sum

/-- The claim's score of a document against the two ranked lists: the sum,
over the lists containing it, of `1 / (k + rank + 1)`. -/
def claimScore (k : Nat) (A B : List String) (doc : String) : ℚ :=
  (if doc ∈ A then 1 / (k + A.indexOf doc + 1 : ℚ) else 0) +
    (if doc ∈ B then 1 / (k + B.indexOf doc + 1 : ℚ) else 0)

end Retrieval

namespace Ranking

open Classical

/-- One `evidenceRefs` entry (`{noteId, childId, quote}`). -/
structure EvidenceRef where
  noteId : String
  childId : String
  quote : String
deriving DecidableEq, Repr

/-- The `eurekaMarkers` object read by `rank_insights`. -/
structure EurekaMarkers where
  suddennessProxy : ℝ
  fluency : ℝ
  conviction : ℝ
  positiveAffect : ℝ

/-- The slice of an insight payload that `rank_insights` reads. -/
structure InsightP where
  insightCore : String
  eurekaMarkers : EurekaMarkers
  bayesianSurprise : ℝ
  evidenceRefs : List EvidenceRef

/-- `diversity`: the number of distinct note ids among the evidence refs
(the Python set cardinality). -/
def diversity (ins : InsightP) : ℕ :=
  ((ins.evidenceRefs.map EvidenceRef.noteId).dedup).length

/-- The outcome of `counter_insight_check` as `rank_insights` consumes it:
`some sev` when the check returned a payload carrying the number `sev` as
severity, `none` when it errored, returned `None`, or carried no severity.
The guard `if ctr and ctr.get("severity")` makes a zero severity take the
no-penalty branch (the resulting penalty is 0 either way). -/
noncomputable def penalty (ctr : Option ℝ) : ℝ :=
  match ctr with
  | some sev => if sev = 0 then 0 else 0.25 * min 1 sev
  | none => 0

/-- The score formula of `rank_insights` (`ranking.py` lines 114-118). -/
noncomputable def score (ins : InsightP) (ctr : Option ℝ) : ℝ :=
  0.40 * ins.eurekaMarkers.conviction + 0.25 * ins.eurekaMarkers.fluency +
    0.15 * ins.bayesianSurprise + 0.10 * Real.tanh ((diversity ins : ℝ) / 6) -
    penalty ctr

/-- The penalty exactly as the claim words it: `0.25·min(1, severity)` when
the counter-check returns a severity, 0 otherwise. -/
noncomputable def specPenalty (ctr : Option ℝ) : ℝ :=
  match ctr with
  | some sev => 0.25 * min 1 sev
  | none => 0

/-- The claim's score formula, stated independently of the source. -/
noncomputable def specScore (ins : InsightP) (ctr : Option ℝ) : ℝ :=
  0.40 * ins.eurekaMarkers.conviction + 0.25 * ins.eurekaMarkers.fluency +
    0.15 * ins.bayesianSurprise + 0.10 * Real.tanh ((diversity ins : ℝ) / 6) -
    specPenalty ctr

/-- The scored list `rank_insights` builds before sorting: each insight
paired with its score, where `ctr i` is what `counter_insight_check`
returned for the `i`-th insight (the evidence map is keyed by index in the
source). -/
noncomputable def scoredList (insights : List InsightP) (ctr : ℕ → Option ℝ) :
    List (InsightP × ℝ) :=
  insights.enum.map (fun p => (p.2, score p.2 (ctr p.1)))

/-- `rank_insights`: score every insight, then `sort(key=score,
reverse=True)` — a stable descending sort, embedded with `mergeSort`. -/
noncomputable def rank_insights (insights : List InsightP)
    (ctr : ℕ → Option ℝ) : List (InsightP × ℝ) :=
  (scoredList insights ctr).mergeSort (fun a b => decide (b.2 ≤ a.2))

/-- A concrete insight with extreme markers, used to instantiate C8. -/
def c8Insight : InsightP := ⟨"core", ⟨0, 1, 1, 0⟩, 1, []⟩

end Ranking

namespace Jobs

/-- A store holding one freshly created job `"j"` (trace id `"t"`,
created at instant 0), as `POST /api/generate-insights` leaves it. -/
def store0 : JobStore := [("j", mkJob "j" "t" 0)]

/-- A sample insight, as the pipeline builds them. -/
def sampleInsight : Insight := ⟨"final-0", "The core insight", 0, none, none⟩

/-- A sample pipeline result. -/
def sampleResult : JobResult := ⟨"v2", [sampleInsight]⟩

/-- `store0` after the cancel endpoint ran at instant 1. -/
def afterCancel : JobStore := (store0.cancel "j" 1).toOption.getD []

/-- `afterCancel` after the runner nevertheless called `complete`. -/
def afterCancelComplete : JobStore :=
  (afterCancel.complete "j" sampleResult 2).toOption.getD []

/-- `store0` after a heartbeat that supplied a non-empty partial list. -/
def storeWithPartial : JobStore :=
  (store0.heartbeat "j" .initial_synthesis 50 (some [sampleInsight]) none none
    1).toOption.getD []

/-- `storeWithPartial` after a heartbeat that supplied the *empty* partial
list. -/
def afterEmptyPartial : JobStore :=
  (storeWithPartial.heartbeat "j" .initial_synthesis 55 (some []) none none
    2).toOption.getD []

/-- The prefix of the runner's interaction with the job store up to a
cancel request: `_runner` marks the job RUNNING (`server.py` line 149), the
pipeline heartbeats `(candidate_selection, 5)` (`backend_pipeline.py` line
178, through `ProgressReporter.update`, which adds an `elapsed_ms` delta),
then the user cancels. -/
def c2AfterCancel : Except String JobStore :=
  (store0.update "j" ⟨some .RUNNING, none, none⟩ 1).bind fun s1 =>
  (s1.heartbeat "j" .candidate_selection 5 none (some [(.elapsed_ms, 3)]) none
    2).bind fun s2 =>
  s2.cancel "j" 3

/-- The rest of the runner's interaction: `run_full_insight_pipeline`
contains no `is_cancelled` check, so after the cancel it simply performs its
remaining heartbeats (`backend_pipeline.py` lines 185, 196, 204, 207,
219/221, 238, 265, 279) and `_runner` finally calls `complete`
(`server.py` line 173). -/
def c2Trace : Except String JobStore :=
  c2AfterCancel.bind fun s3 =>
  (s3.heartbeat "j" .candidate_selection 15 none
    (some [(.clusters, 1), (.elapsed_ms, 4)]) none 4).bind fun s4 =>
  (s4.heartbeat "j" .candidate_selection 30 none
    (some [(.notes_considered, 1), (.elapsed_ms, 5)]) none 5).bind fun s5 =>
  (s5.heartbeat "j" .initial_synthesis 50
    (some [⟨"temp-0", "The core insight", 0, none, none⟩])
    (some [(.elapsed_ms, 6)]) none 6).bind fun s6 =>
  (s6.heartbeat "j" .multi_hop 55 none (some [(.elapsed_ms, 7)]) none
    7).bind fun s7 =>
  (s7.heartbeat "j" .multi_hop 60 none (some [(.elapsed_ms, 8)]) none
    8).bind fun s8 =>
  (s8.heartbeat "j" .agent_refinement 80 none (some [(.elapsed_ms, 9)]) none
    9).bind fun s9 =>
  (s9.heartbeat "j" .finalizing 90 none (some [(.elapsed_ms, 10)]) none
    10).bind fun s10 =>
  (s10.heartbeat "j" .finalizing 100 none (some [(.elapsed_ms, 11)]) none
    11).bind fun s11 =>
  s11.complete "j" sampleResult 12

/-- The store the runner leaves behind. -/
def c2Final : JobStore := c2Trace.toOption.getD []

end Jobs

/-! ## Supporting lemmas and claim theorems -/

namespace Jobs

/-- After erasing a job id, looking it up finds nothing. -/
theorem find_eraseJob (s : JobStore) (id : String) :
    (s.eraseJob id).find id = none := by
  induction s with
  | nil => rfl
  | cons p rest ih =>
      by_cases h : p.1 = id
      · simp only [JobStore.eraseJob, List.filter_cons, h] at ih ⊢
        simp only [decide_not, decide_True, Bool.not_true] at ih ⊢
        exact ih
      · simp only [JobStore.eraseJob, List.filter_cons, h] at ih ⊢
        simp only [JobStore.find] at ih ⊢
        simp [List.find?_cons, h]

/-- C10: `is_cancelled` answers `True` for an id that names no live job —
unknown, or expired (in which case the lookup also evicts it) — so a runner
whose job was evicted observes itself as cancelled. -/
theorem C10_is_cancelled_of_dead (s : JobStore) (id : String) (now : Int)
    (h : ∀ j, s.find id = some j → j.is_expired now = true) :
    (s.is_cancelled id now).1 = true ∧
      (s.is_cancelled id now).2.find id = none := by
  cases hf : s.find id with
  | none => simp [JobStore.is_cancelled, JobStore.get, hf]
  | some j =>
      simp [JobStore.is_cancelled, JobStore.get, hf, h j hf, find_eraseJob]

/-- C10 witness: a job created at 0 with the 24-hour TTL is dead at instant
100000, so `is_cancelled` answers `True` and evicts it. -/
theorem C10_witness :
    ((store0.is_cancelled "j" 100000).1 = true ∧
      (store0.is_cancelled "j" 100000).2.find "j" = none) :=
  C10_is_cancelled_of_dead store0 "j" 100000 (fun j hj => by
    have h0 : store0.find "j" = some (mkJob "j" "t" 0) := by decide
    rw [h0] at hj
    injection hj with hj1
    rw [← hj1]
    decide)

/-- C1 (amended): on a job in a terminal state, a later `heartbeat` indeed
leaves the status unchanged (it never writes that field), but `complete`
overwrites the status with SUCCEEDED and `fail` overwrites it with FAILED:
terminal transitions are not write-once. -/
theorem C1_terminal_mutations (s : JobStore) (id : String) (j : JobInternal)
    (hfind : s.find id = some j) (_hterm : j.view.status.isTerminal)
    (phase : Phase) (pct : Int) (pl : Option (List Insight))
    (md : Option (List (MetricKey × Int))) (msg : Option String)
    (r : JobResult) (code m : String) (now : Int) :
    (∃ j1, s.heartbeat id phase pct pl md msg now = .ok (s.setJob id j1) ∧
      j1.view.status = j.view.status) ∧
    (∃ j2, s.complete id r now = .ok (s.setJob id j2) ∧
      j2.view.status = .SUCCEEDED) ∧
    (∃ j3, s.fail id code m now = .ok (s.setJob id j3) ∧
      j3.view.status = .FAILED) := by
  refine ⟨?_, ?_, ?_⟩
  · simp only [JobStore.heartbeat, hfind]
    refine ⟨_, rfl, ?_⟩
    rcases pl with _ | (_ | ⟨p, ps⟩) <;>
      rcases md with _ | (_ | ⟨d, ds⟩) <;>
      rcases msg with _ | m' <;>
      simp <;> split <;> simp
  · simp only [JobStore.complete, JobStore.update, hfind, applyFields]
    exact ⟨_, rfl, rfl⟩
  · simp only [JobStore.fail, JobStore.update, hfind, applyFields]
    exact ⟨_, rfl, rfl⟩

/-- C1 witness: instantiating the amended statement on the concrete
cancelled job of `afterCancel`. -/
theorem C1_witness :
    ((∃ j1, afterCancel.heartbeat "j" .finalizing 90 none none none 5 =
        .ok (afterCancel.setJob "j" j1) ∧ j1.view.status =
          JobState.CANCELLED) ∧
      (∃ j2, afterCancel.complete "j" sampleResult 5 =
        .ok (afterCancel.setJob "j" j2) ∧ j2.view.status = .SUCCEEDED) ∧
      (∃ j3, afterCancel.fail "j" "code" "msg" 5 =
        .ok (afterCancel.setJob "j" j3) ∧ j3.view.status = .FAILED)) := by
  have hfind : afterCancel.find "j" =
      some { mkJob "j" "t" 0 with
               cancel_event := true
               view := { (mkJob "j" "t" 0).view with
                           status := .CANCELLED, updated_at := 1 } } := by
    decide
  have h := C1_terminal_mutations afterCancel "j" _ hfind (by trivial)
    Phase.finalizing 90 none none none sampleResult "code" "msg" 5
  exact h

/-- C1 counterexample: the claim says a `complete` on a CANCELLED job leaves
the status unchanged; in the code it flips it to SUCCEEDED. -/
theorem C1_counterexample :
    (afterCancel.find "j").map (fun j => j.view.status) =
        some JobState.CANCELLED ∧
      (afterCancelComplete.find "j").map (fun j => j.view.status) =
        some JobState.SUCCEEDED ∧
      some JobState.SUCCEEDED ≠ some JobState.CANCELLED := by
  decide

/-- C9 (amended): `heartbeat` on an existing job replaces `progress` with
`{phase, pct}`; a *non-empty* partial list replaces `partial_results`, while
an absent or empty one leaves them untouched (`if partial:` is false for
`[]`); a given `metrics_delta` adds each entry to the named metrics field;
the status is never written. -/
theorem C9_heartbeat_spec (s : JobStore) (id : String) (j : JobInternal)
    (hfind : s.find id = some j) (phase : Phase) (pct : Int)
    (pl : Option (List Insight)) (md : Option (List (MetricKey × Int)))
    (msg : Option String) (now : Int) :
    ∃ j1, s.heartbeat id phase pct pl md msg now = .ok (s.setJob id j1) ∧
      j1.view.progress = some ⟨phase, pct⟩ ∧
      (∀ p ps, pl = some (p :: ps) → j1.view.partial_results = p :: ps) ∧
      (pl = none ∨ pl = some [] →
        j1.view.partial_results = j.view.partial_results) ∧
      (∀ ds, md = some ds →
        j1.view.metrics =
          ds.foldl (fun m (kv : MetricKey × Int) => m.addDelta kv.1 kv.2)
            j.view.metrics) ∧
      (md = none → j1.view.metrics = j.view.metrics) ∧
      j1.view.status = j.view.status := by
  simp only [JobStore.heartbeat, hfind]
  refine ⟨_, rfl, ?_, ?_, ?_, ?_, ?_, ?_⟩
  · rcases pl with _ | (_ | ⟨p, ps⟩) <;> rcases md with _ | (_ | ⟨d, ds⟩) <;>
      rcases msg with _ | m' <;> (try split) <;> simp_all [apply_ite]
  · intro p' ps' hp
    subst hp
    rcases md with _ | (_ | ⟨d, ds⟩) <;> rcases msg with _ | m' <;>
      (try split) <;> simp_all [apply_ite]
  · intro hp
    rcases hp with h | h <;> subst h <;>
      rcases md with _ | (_ | ⟨d, ds⟩) <;> rcases msg with _ | m' <;>
        (try split) <;> simp_all [apply_ite]
  · intro ds hds
    subst hds
    rcases ds with _ | ⟨d, ds⟩ <;> rcases pl with _ | (_ | ⟨p, ps⟩) <;>
      rcases msg with _ | m' <;> (try split) <;> simp_all [apply_ite]
  · intro hmd
    subst hmd
    rcases pl with _ | (_ | ⟨p, ps⟩) <;> rcases msg with _ | m' <;>
      (try split) <;> simp_all [apply_ite]
  · rcases pl with _ | (_ | ⟨p, ps⟩) <;> rcases md with _ | (_ | ⟨d, ds⟩) <;>
      rcases msg with _ | m' <;> (try split) <;> simp_all [apply_ite]

/-- C9 witness: the amended statement instantiated on `store0` with a
non-empty partial list and a metrics delta. -/
theorem C9_witness :
    (∃ j1, store0.heartbeat "j" .initial_synthesis 50 (some [sampleInsight])
        (some [(.clusters, 2)]) none 1 = .ok (store0.setJob "j" j1) ∧
      j1.view.progress = some ⟨.initial_synthesis, 50⟩ ∧
      (∀ p ps, some [sampleInsight] = some (p :: ps) →
        j1.view.partial_results = p :: ps) ∧
      (some [sampleInsight] = none ∨ some [sampleInsight] = some ([] : List Insight) →
        j1.view.partial_results = (mkJob "j" "t" 0).view.partial_results) ∧
      (∀ ds, some [((MetricKey.clusters : MetricKey), (2 : Int))] = some ds →
        j1.view.metrics =
          ds.foldl (fun m (kv : MetricKey × Int) => m.addDelta kv.1 kv.2)
            (mkJob "j" "t" 0).view.metrics) ∧
      (some [((MetricKey.clusters : MetricKey), (2 : Int))] = none →
        j1.view.metrics = (mkJob "j" "t" 0).view.metrics) ∧
      j1.view.status = (mkJob "j" "t" 0).view.status) :=
  C9_heartbeat_spec store0 "j" (mkJob "j" "t" 0) (by decide)
    Phase.initial_synthesis 50 (some [sampleInsight])
    (some [(.clusters, 2)]) none 1

/-- C9 counterexample: a heartbeat whose partial list is `[]` does *not*
replace the stored partial results (the claim says any given list,
including an empty one, replaces them). -/
theorem C9_counterexample :
    (storeWithPartial.find "j").map (fun j => j.view.partial_results) =
        some [sampleInsight] ∧
      (afterEmptyPartial.find "j").map (fun j => j.view.partial_results) =
        some [sampleInsight] ∧
      some [sampleInsight] ≠ some ([] : List Insight) := by
  decide

/-- C2: the trace the code actually produces when the user cancels between
phases — the status is CANCELLED right after the cancel, but the pipeline
(which never consults `is_cancelled`) keeps heartbeating and `_runner`
finally calls `complete`, leaving the job SUCCEEDED with a non-null result.
The claim (and spec §4.10) say the job should end CANCELLED with a null
result. -/
theorem C2_cancel_is_overwritten :
    (((c2AfterCancel.toOption.getD []).find "j").map (fun j => j.view.status))
        = some JobState.CANCELLED ∧
      (c2Final.find "j").map (fun j => (j.view.status, j.view.result)) =
        some (JobState.SUCCEEDED, some sampleResult) ∧
      JobState.SUCCEEDED ≠ JobState.CANCELLED := by
  decide

end Jobs

namespace Verifier

/-- C3 (amended): the verdict is `supported` exactly when some returned
snippet contains the candidate text case-insensitively, `uncertain` when
there are results but none matches, `refuted` when there are no results;
`verify_candidates` maps this verdict over the candidates — so with the
web-search key absent (every search returns `[]`) it yields one `refuted`
verification per candidate rather than an empty list. -/
theorem C3_verifier_verdicts (search : List Char → Nat → List SearchResult)
    (query : List Char) (cands : List Candidate) (max_sites : Nat) :
    (∀ cand rs,
      (verdictOf cand rs = "supported" ↔
        ∃ r ∈ rs, pyContains (pyLower r.snippet) (pyLower cand.text) = true) ∧
      (verdictOf cand rs = "uncertain" ↔ rs ≠ [] ∧
        ∀ r ∈ rs, ¬ pyContains (pyLower r.snippet) (pyLower cand.text) = true) ∧
      (verdictOf cand rs = "refuted" ↔ rs = [])) ∧
    (verify_candidates search query cands max_sites =
      cands.map (verifyOne search query max_sites)) ∧
    ((∀ q k, search q k = []) →
      verify_candidates search query cands max_sites =
        cands.map (fun c => ⟨c, "refuted", 0, []⟩)) := by
  refine ⟨?_, rfl, ?_⟩
  · intro cand rs
    have hscore : 1 ≤ scoreOf cand rs ↔
        ∃ r ∈ rs, pyContains (pyLower r.snippet) (pyLower cand.text) = true := by
      rw [scoreOf, ← List.countP_eq_length_filter]
      exact List.countP_pos_iff
    by_cases h1 : 1 ≤ scoreOf cand rs
    · obtain ⟨r, hr, hp⟩ := hscore.mp h1
      refine ⟨by simp [verdictOf, h1, hscore.mp h1], ?_, ?_⟩
      · simp only [verdictOf, if_pos h1]
        constructor
        · intro h
          exact absurd h (by decide)
        · rintro ⟨-, hall⟩
          exact absurd hp (by simpa using hall r hr)
      · simp only [verdictOf, if_pos h1]
        constructor
        · intro h
          exact absurd h (by decide)
        · intro h
          subst h
          simp at hr
    · by_cases h2 : rs.isEmpty
      · have h2' : rs = [] := List.isEmpty_iff.mp h2
        subst h2'
        refine ⟨?_, ?_, ?_⟩
        · simp [verdictOf, h1]
        · simp only [verdictOf, if_neg h1, List.isEmpty_nil, if_pos rfl]
          constructor
          · intro h
            exact absurd h (by decide)
          · rintro ⟨h, -⟩
            exact absurd rfl h
        · simp [verdictOf, h1]
      · have h2' : rs ≠ [] := by
          intro h
          subst h
          simp at h2
        have hnone : ∀ r ∈ rs,
            ¬ pyContains (pyLower r.snippet) (pyLower cand.text) = true := by
          intro r hr hp
          exact h1 (hscore.mpr ⟨r, hr, hp⟩)
        refine ⟨?_, ?_, ?_⟩
        · simp only [verdictOf, if_neg h1, if_neg h2]
          constructor
          · intro h
            exact absurd h (by decide)
          · rintro ⟨r, hr, hp⟩
            exact absurd hp (hnone r hr)
        · simp only [verdictOf, if_neg h1, if_neg h2]
          exact ⟨fun _ => ⟨h2', hnone⟩, fun _ => trivial⟩
        · simp only [verdictOf, if_neg h1, if_neg h2]
          constructor
          · intro h
            exact absurd h (by decide)
          · intro h
            exact absurd h h2'
  · intro hkey
    unfold verify_candidates
    apply List.map_congr_left
    intro c _
    simp [verifyOne, hkey, verdictOf, scoreOf]

/-- C3 witness: the amended statement applied to the key-absent search and
one concrete candidate, yielding a single `refuted` verification. -/
theorem C3_witness :
    verify_candidates core_web_search_noKey "q".toList [⟨"x".toList⟩] 3 =
      [⟨⟨"x".toList⟩, "refuted", 0, []⟩] := by
  have h := (C3_verifier_verdicts core_web_search_noKey "q".toList
    [⟨"x".toList⟩] 3).2.2 (fun _ _ => rfl)
  simpa using h

/-- C3 counterexample: with the web-search key absent the verifier does
*not* return an empty list for a non-empty candidate list — it returns one
`refuted` verification per candidate. -/
theorem C3_counterexample :
    verify_candidates core_web_search_noKey "q".toList [⟨"x".toList⟩] 3 ≠ [] ∧
      (verify_candidates core_web_search_noKey "q".toList
        [⟨"x".toList⟩] 3).map (fun v => v.verdict) = ["refuted"] := by
  decide

end Verifier

namespace Chunker

/-- C4: the pattern `chunker.py` feeds `re.split` is the raw string
`r'\\n\\s*\\n'`, which matches the literal characters backslash-`n` (twice,
with optional letters `s` between), never a blank line; so `chunk_document`
returns `"para1\n\npara2"` as a *single* chunk, while its own docstring (and
the claim) promise a split into the two paragraphs — which is exactly what
the sibling splitter `chunk_text` produces. -/
theorem C4_chunk_document_bug :
    (chunk_document ⟨"doc".toList, "para1\n\npara2".toList⟩).map
        (fun c => c.text) = ["para1\n\npara2".toList] ∧
      chunk_text "para1\n\npara2".toList =
        ["para1".toList, "para2".toList] := by
  decide

end Chunker

namespace VectorIdx

/-- C5: a batch whose row dimension differs from the index dimension makes
`add` raise before any mutation, so the caller's state is unchanged. -/
theorem C5_add_dimension_mismatch (s : VIState) (m : NpMatrix)
    (ids : List String) (h : m.cols ≠ s.dimension) :
    s.add m ids = .error "Vector dimension mismatch." ∧
      s.applyOp (.add m ids) = s := by
  constructor
  · simp [VIState.add, h]
  · simp [VIState.applyOp, VIState.add, h]

/-- C5 witness: adding 2-wide rows to a fresh 768-dimensional index fails
and leaves the index as it was. -/
theorem C5_witness :
    ((mkFresh 768).add ⟨[[0, 0]], 2, by decide⟩ ["a"] =
        .error "Vector dimension mismatch." ∧
      (mkFresh 768).applyOp (.add ⟨[[0, 0]], 2, by decide⟩ ["a"]) =
        mkFresh 768) :=
  C5_add_dimension_mismatch (mkFresh 768) ⟨[[0, 0]], 2, by decide⟩ ["a"]
    (by decide)

/-- Looking up the kept indices inside `W ++ V` — where the indices come
from enumerating the id list offset by `W.length` — selects exactly the
zip-filtered vectors, in order (so `index.reconstruct` never goes out of
bounds when index and map have equal length). -/
theorem keep_lookup_snd {α : Type} (P : String → Bool) :
    ∀ (L : List String) (V W : List α), L.length = V.length →
      ((((L.enumFrom W.length).filter (fun p => P p.2)).map
        Prod.fst).filterMap (fun i => (W ++ V)[i]?)) =
      ((L.zip V).filter (fun p => P p.1)).map Prod.snd := by
  intro L
  induction L with
  | nil =>
      intro V W h
      have : V = [] := List.eq_nil_of_length_eq_zero h.symm
      subst this
      simp
  | cons a L ih =>
      intro V W h
      cases V with
      | nil => simp at h
      | cons b V =>
          have hL : L.length = V.length := by simpa using h
          have hstep := ih V (W ++ [b]) hL
          have hget : (W ++ b :: V)[W.length]? = some b := by
            rw [List.getElem?_append_right (Nat.le_refl _)]
            simp
          have hrw : W ++ [b] ++ V = W ++ b :: V := by simp
          rw [hrw] at hstep
          have hlen2 : (W ++ [b]).length = W.length + 1 := by simp
          rw [hlen2] at hstep
          by_cases hP : P a
          · simp [List.enumFrom_cons, List.filter_cons, List.zip_cons_cons, hP,
              hget, hstep]
          · simp [List.enumFrom_cons, List.filter_cons, List.zip_cons_cons, hP,
              hstep]

theorem zip_self_filter_snd (P : String → Bool) (L : List String) :
    ((L.zip L).filter (fun p => P p.1)).map Prod.snd = L.filter P := by
  induction L with
  | nil => rfl
  | cons a L ih =>
      by_cases hP : P a
      · simp [List.zip_cons_cons, List.filter_cons, hP, ih]
      · simp [List.zip_cons_cons, List.filter_cons, hP, ih]

theorem keep_lookup_ids (P : String → Bool) (L : List String) :
    (((L.enum.filter (fun p => P p.2)).map Prod.fst).filterMap
      (fun i => L[i]?)) = L.filter P := by
  have h2 := keep_lookup_snd P L L [] rfl
  simpa [zip_self_filter_snd] using h2

theorem enum_filter_length (P : String → Bool) (L : List String) :
    ((L.enum.filter (fun p => P p.2)).map Prod.fst).length =
      (L.filter P).length := by
  have h1 : ((L.enum.filter (fun p => P p.2)).map Prod.snd) = L.filter P := by
    have h0 := @List.filter_map _ _ P Prod.snd L.enum
    rw [List.enum_map_snd] at h0
    simpa [Function.comp] using h0.symm
  calc ((L.enum.filter (fun p => P p.2)).map Prod.fst).length
      = (L.enum.filter (fun p => P p.2)).length := by simp
    _ = ((L.enum.filter (fun p => P p.2)).map Prod.snd).length := by simp
    _ = (L.filter P).length := by rw [h1]

theorem remove_content (s : VIState) (ids : List String)
    (h : s.vectors.length = s.id_map.length) :
    (s.remove_and_rebuild ids).id_map =
        s.id_map.filter (fun d => !ids.contains d) ∧
      (s.remove_and_rebuild ids).vectors =
        ((s.id_map.zip s.vectors).filter
          (fun p => !ids.contains p.1)).map Prod.snd := by
  unfold VIState.remove_and_rebuild
  by_cases hcase :
      ((s.id_map.enum.filter (fun p => !ids.contains p.2)).map
        Prod.fst).length = s.id_map.length
  · rw [if_pos hcase]
    rw [enum_filter_length (fun d => !ids.contains d) s.id_map] at hcase
    have hall : ∀ d ∈ s.id_map, (!ids.contains d) = true :=
      List.filter_length_eq_length.mp hcase
    constructor
    · exact (List.filter_eq_self.mpr hall).symm
    · have hallz : ∀ p ∈ s.id_map.zip s.vectors, (!ids.contains p.1) = true := by
        intro p hp
        exact hall p.1 (List.of_mem_zip hp).1
      rw [List.filter_eq_self.mpr hallz]
      exact (List.map_snd_zip _ _ (le_of_eq h)).symm
  · rw [if_neg hcase]
    constructor
    · exact keep_lookup_ids (fun d => !ids.contains d) s.id_map
    · have := keep_lookup_snd (fun d => !ids.contains d) s.id_map s.vectors []
        h.symm
      simpa using this

theorem zip_filter_fst {α : Type} (P : String → Bool) :
    ∀ (L : List String) (V : List α), L.length = V.length →
      ((L.zip V).filter (fun p => P p.1)).map Prod.fst = L.filter P := by
  intro L
  induction L with
  | nil => intro V h; simp
  | cons a L ih =>
      intro V h
      cases V with
      | nil => simp at h
      | cons b V =>
          have hL : L.length = V.length := by simpa using h
          by_cases hP : P a <;>
            simp [List.zip_cons_cons, List.filter_cons, hP, ih V hL]

theorem remove_disk (s : VIState) (ids : List String) :
    (s.remove_and_rebuild ids).disk = s.disk := by
  simp only [VIState.remove_and_rebuild]
  split <;> rfl

theorem Inv_applyOp (s : VIState) (op : VIOp) (hs : s.Inv) (hop : op.Wf) :
    (s.applyOp op).Inv := by
  cases op with
  | add m ids =>
      by_cases hdim : m.cols ≠ s.dimension
      · simpa [VIState.applyOp, VIState.add, hdim] using hs
      · have hw : m.rows.length = ids.length := hop
        refine ⟨?_, ?_⟩ <;>
          simp [VIState.applyOp, VIState.add, hdim, hs.1, hw]
        exact hs.2
  | remove ids =>
      obtain ⟨hid, hvec⟩ := remove_content s ids hs.1
      simp only [VIState.applyOp]
      constructor
      · rw [hid, hvec]
        have hfst := zip_filter_fst (fun d => !ids.contains d) s.id_map
          s.vectors hs.1.symm
        calc (((s.id_map.zip s.vectors).filter
                (fun p => !ids.contains p.1)).map Prod.snd).length
            = ((s.id_map.zip s.vectors).filter
                (fun p => !ids.contains p.1)).length := by simp
          _ = (((s.id_map.zip s.vectors).filter
                (fun p => !ids.contains p.1)).map Prod.fst).length := by simp
          _ = (s.id_map.filter (fun d => !ids.contains d)).length := by
                rw [hfst]
      · rw [remove_disk s ids]
        exact hs.2
  | save =>
      simp only [VIState.applyOp]
      refine ⟨hs.1, ?_⟩
      intro d v m heq
      injection heq with h1
      injection h1 with h2 h3
      injection h3 with h4 h5
      rw [← h4, ← h5]
      exact hs.1
  | load =>
      simp only [VIState.applyOp]
      cases hdisk : s.disk with
      | none =>
          constructor
          · rfl
          · intro d v m h
            exact Option.noConfusion h
      | some t =>
          obtain ⟨d, v, m⟩ := t
          have hvm := hs.2 d v m hdisk
          constructor
          · exact hvm
          · intro d' v' m' heq
            injection heq with h1
            injection h1 with hd h23
            injection h23 with hv hm
            rw [← hv, ← hm]
            exact hvm

theorem Inv_run (s : VIState) (ops : List VIOp) (hs : s.Inv)
    (hops : ∀ op ∈ ops, op.Wf) : (s.run ops).Inv := by
  induction ops generalizing s with
  | nil => exact hs
  | cons op ops ih =>
      exact ih (s.applyOp op) (Inv_applyOp s op hs (hops op (by simp)))
        (fun o ho => hops o (by simp [ho]))

/-- C6 (amended): starting from any state satisfying the length invariant,
any sequence of `add`/`remove_and_rebuild`/`save`/`load` calls preserves
`len(index.vectors) == len(index.id_map)` — provided every `add` is handed
exactly one external id per vector row, which is what every caller does but
what the method itself does not enforce; and `remove_and_rebuild` keeps
exactly the vectors whose external id is not in the removal set, in their
original order. -/
theorem C6_size_invariant (s : VIState) (ops : List VIOp) (ids : List String)
    (hs : s.Inv) (hops : ∀ op ∈ ops, op.Wf) :
    (s.run ops).Inv ∧
      (s.remove_and_rebuild ids).id_map =
        s.id_map.filter (fun d => !ids.contains d) ∧
      (s.remove_and_rebuild ids).vectors =
        ((s.id_map.zip s.vectors).filter
          (fun p => !ids.contains p.1)).map Prod.snd :=
  ⟨Inv_run s ops hs hops, remove_content s ids hs.1⟩

/-- C6 counterexample: `add` called with one 2-wide row but *two* external
ids passes the dimension check and leaves the index holding 1 vector
against 2 mapped ids — the code only prints an out-of-sync warning, so the
claim that every `add` call preserves the equality is false. -/
theorem C6_counterexample :
    (mkFresh 2).Inv ∧
      ((mkFresh 2).applyOp
        (.add ⟨[[0, 0]], 2, by decide⟩ ["a", "b"])).vectors.length = 1 ∧
      ((mkFresh 2).applyOp
        (.add ⟨[[0, 0]], 2, by decide⟩ ["a", "b"])).id_map.length = 2 :=
  ⟨⟨rfl, fun _ _ _ h => Option.noConfusion h⟩, by decide, by decide⟩

/-- C6 witness: a concrete well-formed run — add one vector under one id,
save, remove it, reload — keeps the invariant, and the removal empties the
one-entry index. -/
theorem C6_witness :
    (((mkFresh 2).run [.add ⟨[[1, 2]], 2, by decide⟩ ["x"], .save,
        .remove ["x"], .load]).Inv ∧
      ((mkFresh 2).remove_and_rebuild ["x"]).id_map =
        ((mkFresh 2).id_map.filter (fun d => !(["x"].contains d))) ∧
      ((mkFresh 2).remove_and_rebuild ["x"]).vectors =
        (((mkFresh 2).id_map.zip (mkFresh 2).vectors).filter
          (fun p => !(["x"].contains p.1))).map Prod.snd) :=
  C6_size_invariant (mkFresh 2)
    [.add ⟨[[1, 2]], 2, by decide⟩ ["x"], .save, .remove ["x"], .load] ["x"]
    ⟨rfl, fun _ _ _ h => Option.noConfusion h⟩
    (by
      intro op hop
      rcases List.mem_cons.mp hop with rfl | hop
      · exact rfl
      rcases List.mem_cons.mp hop with rfl | hop
      · trivial
      rcases List.mem_cons.mp hop with rfl | hop
      · trivial
      rcases List.mem_cons.mp hop with rfl | hop
      · trivial
      · cases hop)

end VectorIdx

namespace Retrieval

theorem lookupQ_nil (x : String) : lookupQ [] x = 0 := rfl

theorem lookupQ_cons (d : String) (v : ℚ) (rest : List (String × ℚ))
    (x : String) :
    lookupQ ((d, v) :: rest) x = if d = x then v else lookupQ rest x := by
  by_cases h : d = x <;> simp [lookupQ, List.find?_cons, h]

theorem bump_nil (doc : String) (w : ℚ) : bump [] doc w = [(doc, w)] := rfl

theorem bump_cons (d : String) (v : ℚ) (rest : List (String × ℚ))
    (doc : String) (w : ℚ) :
    bump ((d, v) :: rest) doc w =
      if d = doc then (d, v + w) :: rest else (d, v) :: bump rest doc w := rfl

theorem bump_keys_mem (acc : List (String × ℚ)) (doc : String) (w : ℚ)
    (x : String) :
    x ∈ (bump acc doc w).map Prod.fst ↔ x ∈ acc.map Prod.fst ∨ x = doc := by
  induction acc with
  | nil => simp [bump_nil]
  | cons p rest ih =>
      obtain ⟨d, v⟩ := p
      by_cases h : d = doc
      · subst h
        simp only [bump_cons, if_pos rfl]
        simp
        tauto
      · simp only [bump_cons, if_neg h]
        simp [ih]
        tauto

theorem bump_keys_nodup (acc : List (String × ℚ)) (doc : String) (w : ℚ)
    (hnd : (acc.map Prod.fst).Nodup) :
    ((bump acc doc w).map Prod.fst).Nodup := by
  induction acc with
  | nil => simp [bump_nil]
  | cons p rest ih =>
      obtain ⟨d, v⟩ := p
      simp only [List.map_cons, List.nodup_cons] at hnd
      by_cases h : d = doc
      · subst h
        rw [bump_cons, if_pos rfl]
        simp only [List.map_cons, List.nodup_cons]
        exact hnd
      · simp only [bump_cons, if_neg h, List.map_cons, List.nodup_cons]
        refine ⟨?_, ih hnd.2⟩
        rw [bump_keys_mem]
        rintro (hmem | rfl)
        · exact hnd.1 hmem
        · exact h rfl

theorem lookupQ_bump_self (acc : List (String × ℚ)) (doc : String) (w : ℚ) :
    lookupQ (bump acc doc w) doc = lookupQ acc doc + w := by
  induction acc with
  | nil => simp [bump_nil, lookupQ_cons, lookupQ_nil]
  | cons p rest ih =>
      obtain ⟨d, v⟩ := p
      by_cases h : d = doc
      · subst h
        simp [bump_cons, lookupQ_cons]
      · simp [bump_cons, h, lookupQ_cons, ih]

theorem lookupQ_bump_other (acc : List (String × ℚ)) (doc x : String) (w : ℚ)
    (hx : x ≠ doc) : lookupQ (bump acc doc w) x = lookupQ acc x := by
  induction acc with
  | nil => simp [bump_nil, lookupQ_cons, lookupQ_nil, Ne.symm hx]
  | cons p rest ih =>
      obtain ⟨d, v⟩ := p
      by_cases h : d = doc
      · subst h
        simp [bump_cons, lookupQ_cons, Ne.symm hx]
      · simp [bump_cons, h, lookupQ_cons, ih]

theorem addListFrom_nil (k : Nat) (acc : List (String × ℚ)) (n : Nat) :
    addListFrom k acc n [] = acc := rfl

theorem addListFrom_cons (k : Nat) (acc : List (String × ℚ)) (n : Nat)
    (a : String) (lst : List String) :
    addListFrom k acc n (a :: lst) =
      addListFrom k (bump acc a (1 / (k + n + 1 : ℚ))) (n + 1) lst := by
  simp [addListFrom, List.enumFrom_cons]

theorem addListFrom_keys_mem (k : Nat) (lst : List String) :
    ∀ (acc : List (String × ℚ)) (n : Nat) (x : String),
      x ∈ (addListFrom k acc n lst).map Prod.fst ↔
        x ∈ acc.map Prod.fst ∨ x ∈ lst := by
  induction lst with
  | nil =>
      intro acc n x
      simp [addListFrom_nil]
  | cons a lst ih =>
      intro acc n x
      rw [addListFrom_cons, ih, bump_keys_mem]
      simp only [List.mem_cons]
      tauto

theorem addListFrom_keys_nodup (k : Nat) (lst : List String) :
    ∀ (acc : List (String × ℚ)) (n : Nat), (acc.map Prod.fst).Nodup →
      ((addListFrom k acc n lst).map Prod.fst).Nodup := by
  induction lst with
  | nil =>
      intro acc n h
      simpa [addListFrom_nil] using h
  | cons a lst ih =>
      intro acc n h
      rw [addListFrom_cons]
      exact ih _ _ (bump_keys_nodup acc a _ h)

theorem listScoreFrom_nil (k n : Nat) (doc : String) :
    listScoreFrom k n [] doc = 0 := rfl

theorem listScoreFrom_cons (k n : Nat) (a : String) (lst : List String)
    (doc : String) :
    listScoreFrom k n (a :: lst) doc =
      (if a = doc then (1 : ℚ) / (k + n + 1) else 0) +
        listScoreFrom k (n + 1) lst doc := by
  by_cases h : a = doc <;>
    simp [listScoreFrom, List.enumFrom_cons, List.filter_cons, h]

theorem lookupQ_addListFrom (k : Nat) (lst : List String) :
    ∀ (acc : List (String × ℚ)) (n : Nat) (doc : String),
      lookupQ (addListFrom k acc n lst) doc =
        lookupQ acc doc + listScoreFrom k n lst doc := by
  induction lst with
  | nil =>
      intro acc n doc
      simp [addListFrom_nil, listScoreFrom_nil]
  | cons a lst ih =>
      intro acc n doc
      rw [addListFrom_cons, ih, listScoreFrom_cons]
      by_cases h : a = doc
      · subst h
        rw [lookupQ_bump_self, if_pos rfl]
        ring
      · rw [lookupQ_bump_other _ _ _ _ (fun hh => h hh.symm), if_neg h]
        ring

theorem listScoreFrom_of_nodup (k : Nat) :
    ∀ (lst : List String), lst.Nodup → ∀ (n : Nat) (doc : String),
      listScoreFrom k n lst doc =
        if doc ∈ lst then 1 / (k + (n + lst.indexOf doc) + 1 : ℚ) else 0 := by
  intro lst
  induction lst with
  | nil =>
      intro _ n doc
      simp [listScoreFrom_nil]
  | cons a lst ih =>
      intro hnd n doc
      simp only [List.nodup_cons] at hnd
      rw [listScoreFrom_cons, ih hnd.2 (n + 1) doc]
      by_cases h : a = doc
      · subst h
        rw [if_pos rfl, if_neg hnd.1, if_pos (List.mem_cons_self a lst),
          List.indexOf_cons_self]
        norm_num
      · rw [if_neg h]
        by_cases hmem : doc ∈ lst
        · have hmem' : doc ∈ a :: lst := List.mem_cons_of_mem a hmem
          rw [if_pos hmem, if_pos hmem', List.indexOf_cons_ne lst h]
          push_cast
          ring
        · have hmem' : doc ∉ a :: lst := by
            intro hh
            rcases List.mem_cons.mp hh with hh2 | hh2
            · exact h hh2.symm
            · exact hmem hh2
          rw [if_neg hmem, if_neg hmem']
          norm_num

theorem lookupQ_of_mem (l : List (String × ℚ)) :
    (l.map Prod.fst).Nodup → ∀ p ∈ l, lookupQ l p.1 = p.2 := by
  induction l with
  | nil =>
      intro _ p hp
      cases hp
  | cons q rest ih =>
      intro hnd p hp
      obtain ⟨d, v⟩ := q
      simp only [List.map_cons, List.nodup_cons] at hnd
      rcases List.mem_cons.mp hp with rfl | hp2
      · simp [lookupQ_cons]
      · have hne : d ≠ p.1 := by
          intro hh
          rw [hh] at hnd
          exact hnd.1 (List.mem_map_of_mem Prod.fst hp2)
        rw [lookupQ_cons, if_neg hne]
        exact ih hnd.2 p hp2

theorem rrfScores_pair (A B : List String) (k : Nat) :
    rrfScores [A, B] k = addListFrom k (addListFrom k [] 0 A) 0 B := rfl

theorem rrfScores_keys_mem (A B : List String) (k : Nat) (x : String) :
    x ∈ (rrfScores [A, B] k).map Prod.fst ↔ x ∈ A ∨ x ∈ B := by
  rw [rrfScores_pair, addListFrom_keys_mem, addListFrom_keys_mem]
  simp

theorem rrfScores_keys_nodup (A B : List String) (k : Nat) :
    ((rrfScores [A, B] k).map Prod.fst).Nodup := by
  rw [rrfScores_pair]
  exact addListFrom_keys_nodup k B _ 0
    (addListFrom_keys_nodup k A [] 0 (by simp))

theorem lookupQ_rrfScores (A B : List String) (hA : A.Nodup) (hB : B.Nodup)
    (k : Nat) (doc : String) :
    lookupQ (rrfScores [A, B] k) doc = claimScore k A B doc := by
  rw [rrfScores_pair, lookupQ_addListFrom, lookupQ_addListFrom,
    listScoreFrom_of_nodup k A hA 0 doc, listScoreFrom_of_nodup k B hB 0 doc]
  simp [claimScore, lookupQ_nil]

theorem rrfScores_snd (A B : List String) (hA : A.Nodup) (hB : B.Nodup)
    (k : Nat) (p : String × ℚ) (hp : p ∈ rrfScores [A, B] k) :
    p.2 = claimScore k A B p.1 := by
  rw [← lookupQ_rrfScores A B hA hB k p.1]
  exact (lookupQ_of_mem _ (rrfScores_keys_nodup A B k) p hp).symm

theorem le_trans_pair : ∀ (a b c : String × ℚ), decide (b.2 ≤ a.2) = true →
    decide (c.2 ≤ b.2) = true → decide (c.2 ≤ a.2) = true := by
  intro a b c hab hbc
  simp only [decide_eq_true_eq] at hab hbc ⊢
  exact le_trans hbc hab

theorem le_total_pair : ∀ (a b : String × ℚ),
    (decide (b.2 ≤ a.2) || decide (a.2 ≤ b.2)) = true := by
  intro a b
  rcases le_total a.2 b.2 with h | h <;> simp [h]

/-- C7: for duplicate-free ranked lists `A` and `B`, `rrf [A, B]` returns
exactly the ids of `set(A) ∪ set(B)`, each once, ordered by descending
score where `score(doc)` sums `1/(60 + rank + 1)` over the lists containing
`doc`; consequently an id appearing earlier than another in both lists is
ranked no worse than it. -/
theorem C7_rrf_spec (A B : List String) (hA : A.Nodup) (hB : B.Nodup) :
    (∀ x, x ∈ rrf [A, B] ↔ x ∈ A ∨ x ∈ B) ∧
      (rrf [A, B]).Nodup ∧
      (rrf [A, B]).Pairwise
        (fun x y => claimScore 60 A B x ≥ claimScore 60 A B y) ∧
      (∀ x y, x ∈ A → x ∈ B → y ∈ A → y ∈ B →
        A.indexOf x < A.indexOf y → B.indexOf x < B.indexOf y →
        (rrf [A, B]).indexOf x ≤ (rrf [A, B]).indexOf y) := by
  have hperm : ((rrfScores [A, B] 60).mergeSort
      (fun a b => decide (b.2 ≤ a.2))).Perm (rrfScores [A, B] 60) :=
    List.mergeSort_perm _ _
  have hpermmap := hperm.map Prod.fst
  have hmem : ∀ x, x ∈ rrf [A, B] ↔ x ∈ A ∨ x ∈ B := by
    intro x
    rw [rrf, hpermmap.mem_iff]
    exact rrfScores_keys_mem A B 60 x
  have hnd : (rrf [A, B]).Nodup := by
    rw [rrf]
    exact hpermmap.nodup_iff.mpr (rrfScores_keys_nodup A B 60)
  have hsorted := List.sorted_mergeSort le_trans_pair le_total_pair
    (rrfScores [A, B] 60)
  have hsorted3 : ((rrfScores [A, B] 60).mergeSort
      (fun a b => decide (b.2 ≤ a.2))).Pairwise
        (fun a b => claimScore 60 A B a.1 ≥ claimScore 60 A B b.1) := by
    refine List.Pairwise.imp_of_mem ?_ hsorted
    intro a b ha hb hle
    have ha2 := rrfScores_snd A B hA hB 60 a (hperm.subset ha)
    have hb2 := rrfScores_snd A B hA hB 60 b (hperm.subset hb)
    simp only [decide_eq_true_eq] at hle
    rw [← ha2, ← hb2]
    exact hle
  have hpw : (rrf [A, B]).Pairwise
      (fun x y => claimScore 60 A B x ≥ claimScore 60 A B y) := by
    rw [rrf]
    exact List.pairwise_map.mpr hsorted3
  refine ⟨hmem, hnd, hpw, ?_⟩
  intro x y hxA hxB hyA hyB hAlt hBlt
  have hne : x ≠ y := by
    intro h
    subst h
    exact lt_irrefl _ hAlt
  have hscore : claimScore 60 A B y < claimScore 60 A B x := by
    rw [claimScore, claimScore, if_pos hxA, if_pos hxB, if_pos hyA, if_pos hyB]
    have hc1 : ((60 : ℚ) + A.indexOf x + 1) < ((60 : ℚ) + A.indexOf y + 1) := by
      have := (Nat.cast_lt (α := ℚ)).mpr hAlt
      linarith
    have hc2 : ((60 : ℚ) + B.indexOf x + 1) < ((60 : ℚ) + B.indexOf y + 1) := by
      have := (Nat.cast_lt (α := ℚ)).mpr hBlt
      linarith
    have hp1 : (0 : ℚ) < 60 + A.indexOf x + 1 := by positivity
    have hp2 : (0 : ℚ) < 60 + B.indexOf x + 1 := by positivity
    exact add_lt_add (one_div_lt_one_div_of_lt hp1 hc1)
      (one_div_lt_one_div_of_lt hp2 hc2)
  by_contra hcon
  have hyx : (rrf [A, B]).indexOf y < (rrf [A, B]).indexOf x :=
    Nat.lt_of_not_le hcon
  have hx' : x ∈ rrf [A, B] := (hmem x).mpr (Or.inl hxA)
  have hy' : y ∈ rrf [A, B] := (hmem y).mpr (Or.inl hyA)
  have hxlen : (rrf [A, B]).indexOf x < (rrf [A, B]).length :=
    List.indexOf_lt_length.mpr hx'
  have hylen : (rrf [A, B]).indexOf y < (rrf [A, B]).length :=
    List.indexOf_lt_length.mpr hy'
  have hrel := List.pairwise_iff_getElem.mp hpw
    ((rrf [A, B]).indexOf y) ((rrf [A, B]).indexOf x) hylen hxlen hyx
  rw [List.getElem_indexOf hylen, List.getElem_indexOf hxlen] at hrel
  exact absurd hrel (not_le.mpr hscore)

/-- C7 witness: the specification instantiated on the concrete duplicate-free
ranked lists `["a", "b"]` and `["b", "a"]`. -/
theorem C7_witness :
    (["a", "b"] : List String).Nodup ∧ (["b", "a"] : List String).Nodup ∧
      ((∀ x, x ∈ rrf [["a", "b"], ["b", "a"]] ↔
          x ∈ (["a", "b"] : List String) ∨ x ∈ (["b", "a"] : List String)) ∧
        (rrf [["a", "b"], ["b", "a"]]).Nodup ∧
        (rrf [["a", "b"], ["b", "a"]]).Pairwise
          (fun x y => claimScore 60 ["a", "b"] ["b", "a"] x ≥
            claimScore 60 ["a", "b"] ["b", "a"] y) ∧
        (∀ x y, x ∈ (["a", "b"] : List String) → x ∈ (["b", "a"] : List String) →
          y ∈ (["a", "b"] : List String) → y ∈ (["b", "a"] : List String) →
          (["a", "b"] : List String).indexOf x < (["a", "b"] : List String).indexOf y →
          (["b", "a"] : List String).indexOf x < (["b", "a"] : List String).indexOf y →
          (rrf [["a", "b"], ["b", "a"]]).indexOf x ≤
            (rrf [["a", "b"], ["b", "a"]]).indexOf y)) :=
  ⟨by decide, by decide,
    C7_rrf_spec ["a", "b"] ["b", "a"] (by decide) (by decide)⟩

end Retrieval

namespace Ranking

theorem penalty_eq_spec (o : Option ℝ) : penalty o = specPenalty o := by
  cases o with
  | none => rfl
  | some s =>
      by_cases h : s = 0
      · subst h
        simp [penalty, specPenalty]
      · simp [penalty, specPenalty, h]

theorem score_eq_spec (ins : InsightP) (o : Option ℝ) :
    score ins o = specScore ins o := by
  simp [score, specScore, penalty_eq_spec]

theorem tanhLtOne (x : ℝ) : Real.tanh x < 1 := by
  rw [Real.tanh_eq_sinh_div_cosh, div_lt_one (Real.cosh_pos x)]
  nlinarith [Real.cosh_sub_sinh x, Real.exp_pos (-x)]

theorem tanhNonneg (x : ℝ) (hx : 0 ≤ x) : 0 ≤ Real.tanh x := by
  rw [Real.tanh_eq_sinh_div_cosh]
  exact div_nonneg (Real.sinh_nonneg_iff.mpr hx) (le_of_lt (Real.cosh_pos x))

theorem penalty_bounds (o : Option ℝ) (h : ∀ s, o = some s → 0 ≤ s ∧ s ≤ 1) :
    0 ≤ penalty o ∧ penalty o ≤ 0.25 := by
  cases o with
  | none =>
      norm_num [penalty]
  | some s =>
      obtain ⟨h0, h1⟩ := h s rfl
      by_cases hz : s = 0
      · subst hz
        norm_num [penalty]
      · simp only [penalty, if_neg hz]
        constructor
        · have : (0 : ℝ) ≤ min 1 s := le_min (by norm_num) h0
          nlinarith
        · have : min 1 s ≤ 1 := min_le_left 1 s
          nlinarith

theorem score_bounds (ins : InsightP) (o : Option ℝ)
    (hc : 0 ≤ ins.eurekaMarkers.conviction ∧ ins.eurekaMarkers.conviction ≤ 1)
    (hf : 0 ≤ ins.eurekaMarkers.fluency ∧ ins.eurekaMarkers.fluency ≤ 1)
    (hs : 0 ≤ ins.bayesianSurprise ∧ ins.bayesianSurprise ≤ 1)
    (hsev : ∀ s, o = some s → 0 ≤ s ∧ s ≤ 1) :
    -0.25 ≤ score ins o ∧ score ins o ≤ 1 := by
  have ht1 : Real.tanh ((diversity ins : ℝ) / 6) < 1 := tanhLtOne _
  have ht0 : 0 ≤ Real.tanh ((diversity ins : ℝ) / 6) :=
    tanhNonneg _ (by positivity)
  have hp := penalty_bounds o hsev
  unfold score
  constructor <;> nlinarith [hc.1, hc.2, hf.1, hf.2, hs.1, hs.2, hp.1, hp.2]

theorem le_trans_pairR : ∀ (a b c : InsightP × ℝ), decide (b.2 ≤ a.2) = true →
    decide (c.2 ≤ b.2) = true → decide (c.2 ≤ a.2) = true := by
  intro a b c hab hbc
  simp only [decide_eq_true_eq] at hab hbc ⊢
  exact le_trans hbc hab

theorem le_total_pairR : ∀ (a b : InsightP × ℝ),
    (decide (b.2 ≤ a.2) || decide (a.2 ≤ b.2)) = true := by
  intro a b
  rcases le_total a.2 b.2 with h | h <;> simp [h]

/-- C8: `rank_insights` scores each insight by
`0.40·conviction + 0.25·fluency + 0.15·bayesianSurprise +
0.10·tanh(diversity/6) − penalty` with `penalty = 0.25·min(1, severity)`
when the counter-check returns a severity and 0 on error or no severity
(fail-open); with markers and severity in `[0, 1]` every score lies in
`[−0.25, 1.0]`, the result is sorted descending, and the (stable) sort
keeps input order on ties. -/
theorem C8_rank_insights_spec (insights : List InsightP) (ctr : ℕ → Option ℝ)
    (hmark : ∀ ins ∈ insights,
      (0 ≤ ins.eurekaMarkers.conviction ∧ ins.eurekaMarkers.conviction ≤ 1) ∧
        (0 ≤ ins.eurekaMarkers.fluency ∧ ins.eurekaMarkers.fluency ≤ 1) ∧
        (0 ≤ ins.bayesianSurprise ∧ ins.bayesianSurprise ≤ 1))
    (hsev : ∀ i s, ctr i = some s → 0 ≤ s ∧ s ≤ 1) :
    (∀ ins o, score ins o = specScore ins o) ∧
      (∀ p ∈ rank_insights insights ctr, -0.25 ≤ p.2 ∧ p.2 ≤ 1) ∧
      (rank_insights insights ctr).Pairwise (fun a b => a.2 ≥ b.2) ∧
      (∀ l' : List (InsightP × ℝ), l'.Sublist (scoredList insights ctr) →
        l'.Pairwise (fun a b => a.2 = b.2) →
        l'.Sublist (rank_insights insights ctr)) := by
  have hperm : (rank_insights insights ctr).Perm (scoredList insights ctr) :=
    List.mergeSort_perm _ _
  refine ⟨score_eq_spec, ?_, ?_, ?_⟩
  · intro p hp
    have hp2 : p ∈ scoredList insights ctr := hperm.subset hp
    simp only [scoredList, List.mem_map] at hp2
    obtain ⟨q, hq, rfl⟩ := hp2
    have hqm : q.2 ∈ insights := by
      have := List.mem_map_of_mem Prod.snd hq
      rwa [List.enum_map_snd] at this
    obtain ⟨hc, hf, hs⟩ := hmark q.2 hqm
    exact score_bounds q.2 (ctr q.1) hc hf hs (hsev q.1)
  · have hsorted := List.sorted_mergeSort le_trans_pairR le_total_pairR
      (scoredList insights ctr)
    refine hsorted.imp ?_
    intro a b h
    simpa using h
  · intro l' hsub hpair
    refine List.sublist_mergeSort le_trans_pairR le_total_pairR ?_ hsub
    refine hpair.imp ?_
    intro a b h
    simp [h]

/-- C8 witness: the statement instantiated on one concrete insight with
markers 0 and 1 and a counter-check that returns nothing. -/
theorem C8_witness :
    (∀ ins ∈ [c8Insight],
      (0 ≤ ins.eurekaMarkers.conviction ∧ ins.eurekaMarkers.conviction ≤ 1) ∧
        (0 ≤ ins.eurekaMarkers.fluency ∧ ins.eurekaMarkers.fluency ≤ 1) ∧
        (0 ≤ ins.bayesianSurprise ∧ ins.bayesianSurprise ≤ 1)) ∧
      (∀ (i : ℕ) (s : ℝ), (fun _ => (none : Option ℝ)) i = some s →
        0 ≤ s ∧ s ≤ 1) ∧
      ((∀ ins o, score ins o = specScore ins o) ∧
        (∀ p ∈ rank_insights [c8Insight] (fun _ => none),
          -0.25 ≤ p.2 ∧ p.2 ≤ 1) ∧
        (rank_insights [c8Insight] (fun _ => none)).Pairwise
          (fun a b => a.2 ≥ b.2) ∧
        (∀ l' : List (InsightP × ℝ),
          l'.Sublist (scoredList [c8Insight] (fun _ => none)) →
          l'.Pairwise (fun a b => a.2 = b.2) →
          l'.Sublist (rank_insights [c8Insight] (fun _ => none)))) := by
  have hmark : ∀ ins ∈ [c8Insight],
      (0 ≤ ins.eurekaMarkers.conviction ∧ ins.eurekaMarkers.conviction ≤ 1) ∧
        (0 ≤ ins.eurekaMarkers.fluency ∧ ins.eurekaMarkers.fluency ≤ 1) ∧
        (0 ≤ ins.bayesianSurprise ∧ ins.bayesianSurprise ≤ 1) := by
    intro ins h
    rw [List.mem_singleton] at h
    subst h
    refine ⟨⟨?_, ?_⟩, ⟨?_, ?_⟩, ⟨?_, ?_⟩⟩ <;> simp [c8Insight]
  have hsev : ∀ (i : ℕ) (s : ℝ), (fun _ => (none : Option ℝ)) i = some s →
      0 ≤ s ∧ s ≤ 1 := fun _ s h => nomatch h
  exact ⟨hmark, hsev,
    C8_rank_insights_spec [c8Insight] (fun _ => none) hmark hsev⟩

end Ranking
